import Mathlib

/-!
Verification development for the Ethereum block-header core
(`src/header.rs` of DeFiCh/ethereum).

The development shallowly embeds the header value types (`Header`,
`PartialHeader`), their conversions (`Header::new`, `From<Header> for
PartialHeader`), the canonical RLP encoding derived from the field order
of `Header`, and the process-wide LRU identity cache backing
`Header::hash`.

Machine values are modelled as `Nat` with explicit range side conditions
(`Header.wf`): a 256-bit hash is a `Nat < 2^256`, an address is a
`Nat < 2^160`, the 256-byte bloom filter is a `Nat < 2^2048`, byte
strings are `List Nat` with entries `< 256`.

External collaborators that are not part of this repository are modelled
from the specification:
* the RLP encoder (`rlp` crate derive): fixed field order, fixed-width
  big-endian byte strings for hash/address/bloom fields, minimal
  big-endian byte strings for unsigned integers, raw byte string for
  `extra_data`, all framed by the standard recursive-length-prefix rules;
* the Keccak-256 digest (`sha3` crate): an abstract parameter producing
  a 32-byte output;
* the LRU cache (`lru` crate): a recency-ordered association list with a
  fixed capacity, most recent entry first.
-/

/-- Byte strings are lists of naturals; well-formed ones have entries `< 256`. -/
abbrev Bytes := List Nat

/-- Modelled from the spec: output type of the Keccak-256 digest primitive
(`sha3::Keccak256`), which always produces exactly 32 bytes. -/
def Byte32 := {l : List Nat // l.length = 32}

/-- Fuel-driven helper for `natToBEBytes`; the fuel only serves to make
the recursion structural (any fuel `≥ n` computes the same list). -/
def natToBEBytesAux : Nat → Nat → List Nat
  | 0, _ => []
  | fuel + 1, n => if n = 0 then [] else natToBEBytesAux fuel (n / 256) ++ [n % 256]

/-- Minimal big-endian byte representation of a natural number
(no leading zero bytes; `0` is the empty string), as the `rlp` crate
encodes unsigned integers. -/
def natToBEBytes (n : Nat) : List Nat := natToBEBytesAux n n

/-- Big-endian value of a byte string. -/
def beBytesToNat (l : List Nat) : Nat :=
  l.foldl (fun a b => a * 256 + b) 0

/-- Fixed-width big-endian byte representation (left-padded with zero
bytes to exactly `w` bytes), as the `rlp` crate encodes the fixed-width
`H256`/`H160`/`H64`/`Bloom` types. -/
def natToFixedBE (w n : Nat) : List Nat :=
  List.replicate (w - (natToBEBytes n).length) 0 ++ natToBEBytes n

/-- Modelled from the spec: RLP framing of a byte string
(single byte `< 0x80` stands for itself; short strings get a
`0x80 + len` header; longer strings get a `0xb7 + lenOfLen` header
followed by the big-endian length). -/
def rlpStr (b : Bytes) : Bytes :=
  match b with
  | [x] => if x < 128 then [x] else [129, x]
  | _ =>
    if b.length ≤ 55 then (128 + b.length) :: b
    else (183 + (natToBEBytes b.length).length) :: (natToBEBytes b.length ++ b)

/-- Modelled from the spec: RLP framing of a list payload
(`0xc0 + len` header for short payloads, `0xf7 + lenOfLen` header
followed by the big-endian length for longer ones). -/
def rlpList (p : Bytes) : Bytes :=
  if p.length ≤ 55 then (192 + p.length) :: p
  else (247 + (natToBEBytes p.length).length) :: (natToBEBytes p.length ++ p)

/-- Ethereum header definition (`pub struct Header`, field for field,
in declared order). -/
structure Header where
  parent_hash : Nat
  ommers_hash : Nat
  beneficiary : Nat
  state_root : Nat
  transactions_root : Nat
  receipts_root : Nat
  logs_bloom : Nat
  difficulty : Nat
  number : Nat
  gas_limit : Nat
  gas_used : Nat
  timestamp : Nat
  extra_data : Bytes
  mix_hash : Nat
  nonce : Nat
  base_fee : Nat
deriving DecidableEq, Repr

/-- Partial header definition without ommers hash and transactions root
(`pub struct PartialHeader`, field for field, in declared order). -/
structure PartialHeader where
  parent_hash : Nat
  beneficiary : Nat
  state_root : Nat
  receipts_root : Nat
  logs_bloom : Nat
  difficulty : Nat
  number : Nat
  gas_limit : Nat
  gas_used : Nat
  timestamp : Nat
  extra_data : Bytes
  mix_hash : Nat
  nonce : Nat
  base_fee : Nat
deriving DecidableEq, Repr

/-- `Header::new(partial_header, ommers_hash, transactions_root)`. -/
def Header.new (p : PartialHeader) (ommers_hash transactions_root : Nat) : Header :=
  { parent_hash := p.parent_hash
    ommers_hash := ommers_hash
    beneficiary := p.beneficiary
    state_root := p.state_root
    transactions_root := transactions_root
    receipts_root := p.receipts_root
    logs_bloom := p.logs_bloom
    difficulty := p.difficulty
    number := p.number
    gas_limit := p.gas_limit
    gas_used := p.gas_used
    timestamp := p.timestamp
    extra_data := p.extra_data
    mix_hash := p.mix_hash
    nonce := p.nonce
    base_fee := p.base_fee }

/-- `impl From<Header> for PartialHeader` (`from` is a Lean keyword,
hence `ofHeader`). -/
def PartialHeader.ofHeader (header : Header) : PartialHeader :=
  { parent_hash := header.parent_hash
    beneficiary := header.beneficiary
    state_root := header.state_root
    receipts_root := header.receipts_root
    logs_bloom := header.logs_bloom
    difficulty := header.difficulty
    number := header.number
    gas_limit := header.gas_limit
    gas_used := header.gas_used
    timestamp := header.timestamp
    extra_data := header.extra_data
    mix_hash := header.mix_hash
    nonce := header.nonce
    base_fee := header.base_fee }

/-- Range side conditions making a `Header` the image of a well-typed
Rust value: `H256`/`U256` fields fit 256 bits, the address fits 160
bits, the bloom fits 2048 bits, `timestamp` and `nonce` fit 64 bits,
`extra_data` is a byte string whose length fits an allocation
(`isize::MAX < 2^63`). -/
def Header.wf (h : Header) : Prop :=
  h.parent_hash < 2 ^ 256 ∧ h.ommers_hash < 2 ^ 256 ∧ h.beneficiary < 2 ^ 160 ∧
  h.state_root < 2 ^ 256 ∧ h.transactions_root < 2 ^ 256 ∧ h.receipts_root < 2 ^ 256 ∧
  h.logs_bloom < 2 ^ 2048 ∧ h.difficulty < 2 ^ 256 ∧ h.number < 2 ^ 256 ∧
  h.gas_limit < 2 ^ 256 ∧ h.gas_used < 2 ^ 256 ∧ h.timestamp < 2 ^ 64 ∧
  (∀ b ∈ h.extra_data, b < 256) ∧ h.extra_data.length < 2 ^ 63 ∧
  h.mix_hash < 2 ^ 256 ∧ h.nonce < 2 ^ 64 ∧ h.base_fee < 2 ^ 256

instance (h : Header) : Decidable h.wf := by
  unfold Header.wf
  exact inferInstance

/-- The RLP item contents of a header's sixteen fields, in the declared
field order — fixed-width byte strings for the `H256`/`H160`/`Bloom`/`H64`
fields, minimal big-endian strings for the `U256`/`u64` fields, and the
raw `extra_data` bytes. -/
def headerFields (h : Header) : List Bytes :=
  [natToFixedBE 32 h.parent_hash,
   natToFixedBE 32 h.ommers_hash,
   natToFixedBE 20 h.beneficiary,
   natToFixedBE 32 h.state_root,
   natToFixedBE 32 h.transactions_root,
   natToFixedBE 32 h.receipts_root,
   natToFixedBE 256 h.logs_bloom,
   natToBEBytes h.difficulty,
   natToBEBytes h.number,
   natToBEBytes h.gas_limit,
   natToBEBytes h.gas_used,
   natToBEBytes h.timestamp,
   h.extra_data,
   natToFixedBE 32 h.mix_hash,
   natToFixedBE 8 h.nonce,
   natToBEBytes h.base_fee]

/-- Payload of the header's RLP list: each field RLP-framed, concatenated
in declared order (the `derive(rlp::RlpEncodable)` wire order). -/
def rlpHeaderPayload (h : Header) : Bytes :=
  ((headerFields h).map rlpStr).flatten

/-- `rlp::encode(header)`: the canonical encoding of a header is the RLP
list of its sixteen fields in declared order. -/
def rlpEncodeHeader (h : Header) : Bytes :=
  rlpList (rlpHeaderPayload h)

/-- RLP item parser: reads one string item from the front, returning its
content bytes and the remaining input. -/
def parseItem (l : Bytes) : Option (Bytes × Bytes) :=
  match l with
  | [] => none
  | b :: rest =>
    if b < 128 then some ([b], rest)
    else if b ≤ 183 then
      if rest.length < b - 128 then none
      else some (rest.take (b - 128), rest.drop (b - 128))
    else if b ≤ 191 then
      if rest.length < b - 183 then none
      else
        if (rest.drop (b - 183)).length < beBytesToNat (rest.take (b - 183)) then none
        else some ((rest.drop (b - 183)).take (beBytesToNat (rest.take (b - 183))),
                   (rest.drop (b - 183)).drop (beBytesToNat (rest.take (b - 183))))
    else none

/-- RLP list-header parser: reads one list item from the front, returning
its payload bytes and the remaining input. -/
def parseList (l : Bytes) : Option (Bytes × Bytes) :=
  match l with
  | [] => none
  | b :: rest =>
    if b < 192 then none
    else if b ≤ 247 then
      if rest.length < b - 192 then none
      else some (rest.take (b - 192), rest.drop (b - 192))
    else
      if rest.length < b - 247 then none
      else
        if (rest.drop (b - 247)).length < beBytesToNat (rest.take (b - 247)) then none
        else some ((rest.drop (b - 247)).take (beBytesToNat (rest.take (b - 247))),
                   (rest.drop (b - 247)).drop (beBytesToNat (rest.take (b - 247))))

/-- Parse exactly `n` consecutive RLP string items. -/
def parseItems : Nat → Bytes → Option (List Bytes × Bytes)
  | 0, l => some ([], l)
  | n + 1, l =>
    match parseItem l with
    | none => none
    | some (c, r) =>
      match parseItems n r with
      | none => none
      | some (cs, r') => some (c :: cs, r')

/-- Decoder for the canonical header encoding: parses the outer list,
then the sixteen field items, and rebuilds the field values. Used to
establish that the canonical encoding is injective. -/
def decodeHeader (l : Bytes) : Option Header :=
  match parseList l with
  | some (p, []) =>
    match parseItems 16 p with
    | some ([c1, c2, c3, c4, c5, c6, c7, c8, c9, c10, c11, c12, c13, c14, c15, c16], []) =>
      some
        { parent_hash := beBytesToNat c1
          ommers_hash := beBytesToNat c2
          beneficiary := beBytesToNat c3
          state_root := beBytesToNat c4
          transactions_root := beBytesToNat c5
          receipts_root := beBytesToNat c6
          logs_bloom := beBytesToNat c7
          difficulty := beBytesToNat c8
          number := beBytesToNat c9
          gas_limit := beBytesToNat c10
          gas_used := beBytesToNat c11
          timestamp := beBytesToNat c12
          extra_data := c13
          mix_hash := beBytesToNat c14
          nonce := beBytesToNat c15
          base_fee := beBytesToNat c16 }
    | _ => none
  | _ => none

/-- Modelled from the spec: the `lru::LruCache` state — entries in
recency order, most recently used first, with a fixed capacity. -/
structure LruCache where
  entries : List (Bytes × Nat)
  cap : Nat

/-- `LruCache::new(cache_size)`: a fresh cache holds no entries. -/
def LruCache.new (cap : Nat) : LruCache := ⟨[], cap⟩

/-- The process-wide `header_hash_cache()` singleton at its lazy
initialization: an empty LRU cache of capacity 100. -/
def headerHashCacheInit : LruCache := LruCache.new 100

/-- Modelled from the spec: `LruCache::get_or_insert(k, f)` — on a hit
the entry is moved to the most-recent position and its stored value
returned; on a miss the supplied value is inserted at the most-recent
position and the least-recently-used entry (the back) is evicted if the
capacity is exceeded. -/
def LruCache.getOrInsert (c : LruCache) (k : Bytes) (v : Nat) : Nat × LruCache :=
  match c.entries.find? (fun e => e.1 == k) with
  | some ent => (ent.2, ⟨ent :: c.entries.eraseP (fun e => e.1 == k), c.cap⟩)
  | none => (v, ⟨((k, v) :: c.entries).take c.cap, c.cap⟩)

/-- `H256::from_slice`: converts a byte slice into a 256-bit value,
failing (panicking, in the source) unless the slice is exactly 32 bytes. -/
def H256.from_slice (l : Bytes) : Option Nat :=
  if l.length = 32 then some (beBytesToNat l) else none

/-- The 256-bit value of a Keccak-256 digest, as
`H256::from_slice(Keccak256::digest(bytes).as_slice())` produces it. -/
def keccakDigest (keccak : Bytes → Byte32) (b : Bytes) : Nat :=
  beBytesToNat (keccak b).val

/-- `Header::hash`, with the digest-to-`H256` conversion's failure branch
kept explicit: RLP-encode the header, then serve the digest from the
cache or compute, insert and return it. The cache state is threaded
explicitly; `keccak` abstracts the Keccak-256 primitive. -/
def Header.hashChecked (keccak : Bytes → Byte32) (h : Header) (c : LruCache) :
    Option (Nat × LruCache) :=
  let rlp_encoded := rlpEncodeHeader h
  match c.entries.find? (fun e => e.1 == rlp_encoded) with
  | some ent => some (ent.2, ⟨ent :: c.entries.eraseP (fun e => e.1 == rlp_encoded), c.cap⟩)
  | none =>
    match H256.from_slice (keccak rlp_encoded).val with
    | some d => some (d, ⟨((rlp_encoded, d) :: c.entries).take c.cap, c.cap⟩)
    | none => none

/-- `Header::hash` as a total function (the failure branch of
`H256::from_slice` is unreachable, proved separately): look the encoding
up in the cache, or insert its Keccak digest. -/
def Header.hash (keccak : Bytes → Byte32) (h : Header) (c : LruCache) : Nat × LruCache :=
  c.getOrInsert (rlpEncodeHeader h) (keccakDigest keccak (rlpEncodeHeader h))

/-- Run a sequence of `Header::hash` calls, threading the cache. -/
def runHashes (keccak : Bytes → Byte32) (hs : List Header) (c : LruCache) : LruCache :=
  hs.foldl (fun c h => (Header.hash keccak h c).2) c

/-- A cache state is consistent with the digest primitive when every
stored entry maps a key to that key's digest — exactly the states the
program can produce (fresh, pre-warmed by hashing, or holding other
hashed entries). -/
def LruCache.Consistent (keccak : Bytes → Byte32) (c : LruCache) : Prop :=
  ∀ e ∈ c.entries, e.2 = keccakDigest keccak e.1

instance (keccak : Bytes → Byte32) (c : LruCache) : Decidable (c.Consistent keccak) := by
  unfold LruCache.Consistent
  exact List.decidableBAll _ _

/-- A concrete stand-in digest function (constant all-zero output), used
to instantiate the abstract Keccak parameter on concrete examples. -/
def zeroKeccak : Bytes → Byte32 := fun _ => ⟨List.replicate 32 0, by simp⟩

/-- The all-zero "genesis-like" header fixture. -/
def zeroHeader : Header :=
  { parent_hash := 0, ommers_hash := 0, beneficiary := 0, state_root := 0,
    transactions_root := 0, receipts_root := 0, logs_bloom := 0, difficulty := 0,
    number := 0, gas_limit := 0, gas_used := 0, timestamp := 0, extra_data := [],
    mix_hash := 0, nonce := 0, base_fee := 0 }

/-! ### Big-endian byte arithmetic -/

theorem natToBEBytesAux_congr (n : Nat) : ∀ f g, n ≤ f → n ≤ g →
    natToBEBytesAux f n = natToBEBytesAux g n := by
  induction n using Nat.strong_induction_on with
  | _ n ih =>
    intro f g hf hg
    cases f with
    | zero =>
      have hn : n = 0 := Nat.le_zero.mp hf
      cases g with
      | zero => rfl
      | succ g => simp [natToBEBytesAux, hn]
    | succ f =>
      cases g with
      | zero =>
        have hn : n = 0 := Nat.le_zero.mp hg
        simp [natToBEBytesAux, hn]
      | succ g =>
        by_cases hn : n = 0
        · simp [natToBEBytesAux, hn]
        · have hd : n / 256 < n := Nat.div_lt_self (Nat.pos_of_ne_zero hn) (by omega)
          simp only [natToBEBytesAux, if_neg hn]
          rw [ih (n / 256) hd f g (by omega) (by omega)]

theorem natToBEBytes_eq (n : Nat) :
    natToBEBytes n = if n = 0 then [] else natToBEBytes (n / 256) ++ [n % 256] := by
  cases n with
  | zero => rfl
  | succ m =>
    have hne : m + 1 ≠ 0 := by omega
    have hd : (m + 1) / 256 ≤ m := by
      have := Nat.div_lt_self (n := m + 1) (k := 256) (by omega) (by omega)
      omega
    simp only [natToBEBytes, natToBEBytesAux, if_neg hne]
    rw [natToBEBytesAux_congr ((m + 1) / 256) m ((m + 1) / 256) hd (Nat.le_refl _)]

theorem beBytesToNat_snoc (l : Bytes) (b : Nat) :
    beBytesToNat (l ++ [b]) = beBytesToNat l * 256 + b := by
  simp [beBytesToNat, List.foldl_append]

theorem beBytesToNat_natToBEBytes (n : Nat) : beBytesToNat (natToBEBytes n) = n := by
  induction n using Nat.strong_induction_on with
  | _ n ih =>
    rw [natToBEBytes_eq]
    by_cases hn : n = 0
    · simp [hn, beBytesToNat]
    · have hd : n / 256 < n := Nat.div_lt_self (Nat.pos_of_ne_zero hn) (by omega)
      rw [if_neg hn, beBytesToNat_snoc, ih (n / 256) hd]
      have := Nat.div_add_mod n 256
      omega

theorem mem_natToBEBytes_lt (n : Nat) : ∀ b ∈ natToBEBytes n, b < 256 := by
  induction n using Nat.strong_induction_on with
  | _ n ih =>
    intro b hb
    rw [natToBEBytes_eq] at hb
    by_cases hn : n = 0
    · simp [hn] at hb
    · rw [if_neg hn] at hb
      have hd : n / 256 < n := Nat.div_lt_self (Nat.pos_of_ne_zero hn) (by omega)
      rcases List.mem_append.mp hb with h | h
      · exact ih (n / 256) hd b h
      · have : b = n % 256 := by simpa using h
        subst this
        exact Nat.mod_lt _ (by omega)

theorem length_natToBEBytes_le : ∀ n k, n < 256 ^ k → (natToBEBytes n).length ≤ k := by
  intro n
  induction n using Nat.strong_induction_on with
  | _ n ih =>
    intro k hk
    rw [natToBEBytes_eq]
    by_cases hn : n = 0
    · simp [hn]
    · rw [if_neg hn]
      cases k with
      | zero =>
        norm_num at hk
        omega
      | succ k =>
        have hd : n / 256 < n := Nat.div_lt_self (Nat.pos_of_ne_zero hn) (by omega)
        have hdk : n / 256 < 256 ^ k := by
          rw [Nat.div_lt_iff_lt_mul (by omega : (0:Nat) < 256)]
          calc n < 256 ^ (k + 1) := hk
            _ = 256 ^ k * 256 := by ring
        have := ih (n / 256) hd k hdk
        simp only [List.length_append, List.length_cons, List.length_nil]
        omega

theorem length_natToBEBytes_pos (n : Nat) (hn : n ≠ 0) : 0 < (natToBEBytes n).length := by
  rw [natToBEBytes_eq, if_neg hn]
  simp

theorem foldl_be_replicate (k : Nat) :
    (List.replicate k 0).foldl (fun a b => a * 256 + b) 0 = 0 := by
  induction k with
  | zero => rfl
  | succ m ih => simpa [List.replicate_succ] using ih

theorem beBytesToNat_replicate_append (k : Nat) (l : Bytes) :
    beBytesToNat (List.replicate k 0 ++ l) = beBytesToNat l := by
  unfold beBytesToNat
  rw [List.foldl_append, foldl_be_replicate]

theorem beBytesToNat_natToFixedBE (w n : Nat) :
    beBytesToNat (natToFixedBE w n) = n := by
  unfold natToFixedBE
  rw [beBytesToNat_replicate_append, beBytesToNat_natToBEBytes]

theorem length_natToFixedBE (w n : Nat) (h : n < 256 ^ w) :
    (natToFixedBE w n).length = w := by
  unfold natToFixedBE
  have := length_natToBEBytes_le n w h
  simp only [List.length_append, List.length_replicate]
  omega

theorem mem_natToFixedBE_lt (w n : Nat) : ∀ b ∈ natToFixedBE w n, b < 256 := by
  intro b hb
  unfold natToFixedBE at hb
  rcases List.mem_append.mp hb with h | h
  · have : b = 0 := List.eq_of_mem_replicate h
    omega
  · exact mem_natToBEBytes_lt n b h

/-! ### RLP framing round-trips -/

theorem rlpStr_nil : rlpStr [] = [128] := rfl

theorem rlpStr_ge2 (x y : Nat) (t : Bytes) :
    rlpStr (x :: y :: t) =
      if (x :: y :: t).length ≤ 55 then (128 + (x :: y :: t).length) :: (x :: y :: t)
      else (183 + (natToBEBytes (x :: y :: t).length).length) ::
        (natToBEBytes (x :: y :: t).length ++ (x :: y :: t)) := rfl

theorem pow256_8 : (256 : Nat) ^ 8 = 2 ^ 64 := by norm_num

theorem parseItem_rlpStr (b rest : Bytes) (hlen : b.length < 2 ^ 64) :
    parseItem (rlpStr b ++ rest) = some (b, rest) := by
  rcases b with _ | ⟨x, _ | ⟨y, t⟩⟩
  · simp [rlpStr_nil, parseItem]
  · by_cases h128 : x < 128
    · simp [rlpStr, parseItem, h128]
    · simp [rlpStr, parseItem, h128]
  · rw [rlpStr_ge2]
    by_cases h55 : (x :: y :: t).length ≤ 55
    · rw [if_pos h55, List.cons_append]
      simp only [parseItem]
      rw [if_neg (by omega), if_pos (by omega)]
      have hL : 128 + (x :: y :: t).length - 128 = (x :: y :: t).length := by omega
      rw [hL, if_neg (by simp only [List.length_append]; omega)]
      rw [List.take_left, List.drop_left]
    · rw [if_neg h55, List.cons_append, List.append_assoc]
      have hL0 : (x :: y :: t).length ≠ 0 := by simp
      have hll1 : 0 < (natToBEBytes (x :: y :: t).length).length :=
        length_natToBEBytes_pos _ hL0
      have hll8 : (natToBEBytes (x :: y :: t).length).length ≤ 8 :=
        length_natToBEBytes_le _ 8 (by rw [pow256_8]; exact hlen)
      simp only [parseItem]
      rw [if_neg (by omega), if_neg (by omega), if_pos (by omega)]
      have hB : 183 + (natToBEBytes (x :: y :: t).length).length - 183
          = (natToBEBytes (x :: y :: t).length).length := by omega
      rw [hB, if_neg (by simp only [List.length_append]; omega)]
      rw [List.take_left, List.drop_left, beBytesToNat_natToBEBytes]
      rw [if_neg (by simp only [List.length_append]; omega)]
      rw [List.take_left, List.drop_left]

theorem parseList_rlpList (p rest : Bytes) (hlen : p.length < 2 ^ 64) :
    parseList (rlpList p ++ rest) = some (p, rest) := by
  unfold rlpList
  by_cases h55 : p.length ≤ 55
  · rw [if_pos h55, List.cons_append]
    simp only [parseList]
    rw [if_neg (by omega), if_pos (by omega)]
    have hL : 192 + p.length - 192 = p.length := by omega
    rw [hL, if_neg (by simp only [List.length_append]; omega)]
    rw [List.take_left, List.drop_left]
  · rw [if_neg h55, List.cons_append, List.append_assoc]
    have hL0 : p.length ≠ 0 := by omega
    have hll1 : 0 < (natToBEBytes p.length).length := length_natToBEBytes_pos _ hL0
    have hll8 : (natToBEBytes p.length).length ≤ 8 :=
      length_natToBEBytes_le _ 8 (by rw [pow256_8]; exact hlen)
    simp only [parseList]
    rw [if_neg (by omega), if_neg (by omega)]
    have hB : 247 + (natToBEBytes p.length).length - 247
        = (natToBEBytes p.length).length := by omega
    rw [hB, if_neg (by simp only [List.length_append]; omega)]
    rw [List.take_left, List.drop_left, beBytesToNat_natToBEBytes]
    rw [if_neg (by simp only [List.length_append]; omega)]
    rw [List.take_left, List.drop_left]

theorem parseItems_flatten (cs : List Bytes) (rest : Bytes)
    (h : ∀ c ∈ cs, c.length < 2 ^ 64) :
    parseItems cs.length ((cs.map rlpStr).flatten ++ rest) = some (cs, rest) := by
  induction cs generalizing rest with
  | nil => simp [parseItems]
  | cons c cs ih =>
    simp only [List.map_cons, List.flatten_cons, List.length_cons, List.append_assoc]
    simp only [parseItems]
    rw [parseItem_rlpStr c _ (h c (by simp))]
    simp [ih _ (fun d hd => h d (by simp [hd]))]

/-! ### Header encoding bounds and decode round-trip -/

theorem pow256_32 : (256 : Nat) ^ 32 = 2 ^ 256 := by norm_num

theorem pow256_20 : (256 : Nat) ^ 20 = 2 ^ 160 := by norm_num

theorem pow256_256 : (256 : Nat) ^ 256 = 2 ^ 2048 := by norm_num

theorem rlpStr_length_le (b : Bytes) (hlen : b.length < 2 ^ 64) :
    (rlpStr b).length ≤ b.length + 9 := by
  rcases b with _ | ⟨x, _ | ⟨y, t⟩⟩
  · simp [rlpStr_nil]
  · by_cases h128 : x < 128 <;> simp [rlpStr, h128]
  · rw [rlpStr_ge2]
    by_cases h55 : (x :: y :: t).length ≤ 55
    · rw [if_pos h55]
      simp
    · rw [if_neg h55]
      have hll8 : (natToBEBytes (x :: y :: t).length).length ≤ 8 :=
        length_natToBEBytes_le _ 8 (by rw [pow256_8]; exact hlen)
      set lenB := natToBEBytes (x :: y :: t).length with hg
      simp only [List.length_cons, List.length_append]
      omega

theorem headerFields_length_le (h : Header) (hw : h.wf) :
    ∀ c ∈ headerFields h, c.length ≤ 256 + h.extra_data.length := by
  obtain ⟨w1, w2, w3, w4, w5, w6, w7, w8, w9, w10, w11, w12, w13, w14, w15, w16, w17⟩ := hw
  intro c hc
  have f32 : ∀ n : Nat, n < 2 ^ 256 → (natToFixedBE 32 n).length = 32 := fun n hn =>
    length_natToFixedBE 32 n (by rw [pow256_32]; exact hn)
  have b32 : ∀ n : Nat, n < 2 ^ 256 → (natToBEBytes n).length ≤ 32 := fun n hn =>
    length_natToBEBytes_le n 32 (by rw [pow256_32]; exact hn)
  simp only [headerFields, List.mem_cons, List.not_mem_nil, or_false] at hc
  rcases hc with rfl | rfl | rfl | rfl | rfl | rfl | rfl | rfl | rfl | rfl | rfl | rfl |
    rfl | rfl | rfl | rfl
  · rw [f32 _ w1]; omega
  · rw [f32 _ w2]; omega
  · rw [length_natToFixedBE 20 _ (by rw [pow256_20]; exact w3)]; omega
  · rw [f32 _ w4]; omega
  · rw [f32 _ w5]; omega
  · rw [f32 _ w6]; omega
  · rw [length_natToFixedBE 256 _ (by rw [pow256_256]; exact w7)]; omega
  · have := b32 _ w8; omega
  · have := b32 _ w9; omega
  · have := b32 _ w10; omega
  · have := b32 _ w11; omega
  · have := length_natToBEBytes_le h.timestamp 8 (by rw [pow256_8]; exact w12); omega
  · omega
  · rw [f32 _ w15]; omega
  · rw [length_natToFixedBE 8 _ (by rw [pow256_8]; exact w16)]; omega
  · have := b32 _ w17; omega

theorem headerFields_length_lt (h : Header) (hw : h.wf) :
    ∀ c ∈ headerFields h, c.length < 2 ^ 64 := by
  intro c hc
  have h1 := headerFields_length_le h hw c hc
  obtain ⟨-, -, -, -, -, -, -, -, -, -, -, -, -, h2, -⟩ := hw
  omega

theorem rlpHeaderPayload_length_lt (h : Header) (hw : h.wf) :
    (rlpHeaderPayload h).length < 2 ^ 64 := by
  have hflt := headerFields_length_lt h hw
  obtain ⟨w1, w2, w3, w4, w5, w6, w7, w8, w9, w10, w11, w12, w13, w14, w15, w16, w17⟩ := hw
  simp only [headerFields, List.mem_cons, List.not_mem_nil, or_false, forall_eq_or_imp,
    forall_eq] at hflt
  obtain ⟨g1, g2, g3, g4, g5, g6, g7, g8, g9, g10, g11, g12, g13, g14, g15, g16⟩ := hflt
  have l1 : (natToFixedBE 32 h.parent_hash).length = 32 :=
    length_natToFixedBE _ _ (by rw [pow256_32]; exact w1)
  have l2 : (natToFixedBE 32 h.ommers_hash).length = 32 :=
    length_natToFixedBE _ _ (by rw [pow256_32]; exact w2)
  have l3 : (natToFixedBE 20 h.beneficiary).length = 20 :=
    length_natToFixedBE _ _ (by rw [pow256_20]; exact w3)
  have l4 : (natToFixedBE 32 h.state_root).length = 32 :=
    length_natToFixedBE _ _ (by rw [pow256_32]; exact w4)
  have l5 : (natToFixedBE 32 h.transactions_root).length = 32 :=
    length_natToFixedBE _ _ (by rw [pow256_32]; exact w5)
  have l6 : (natToFixedBE 32 h.receipts_root).length = 32 :=
    length_natToFixedBE _ _ (by rw [pow256_32]; exact w6)
  have l7 : (natToFixedBE 256 h.logs_bloom).length = 256 :=
    length_natToFixedBE _ _ (by rw [pow256_256]; exact w7)
  have l8 : (natToBEBytes h.difficulty).length ≤ 32 :=
    length_natToBEBytes_le _ _ (by rw [pow256_32]; exact w8)
  have l9 : (natToBEBytes h.number).length ≤ 32 :=
    length_natToBEBytes_le _ _ (by rw [pow256_32]; exact w9)
  have l10 : (natToBEBytes h.gas_limit).length ≤ 32 :=
    length_natToBEBytes_le _ _ (by rw [pow256_32]; exact w10)
  have l11 : (natToBEBytes h.gas_used).length ≤ 32 :=
    length_natToBEBytes_le _ _ (by rw [pow256_32]; exact w11)
  have l12 : (natToBEBytes h.timestamp).length ≤ 8 :=
    length_natToBEBytes_le _ _ (by rw [pow256_8]; exact w12)
  have l14 : (natToFixedBE 32 h.mix_hash).length = 32 :=
    length_natToFixedBE _ _ (by rw [pow256_32]; exact w15)
  have l15 : (natToFixedBE 8 h.nonce).length = 8 :=
    length_natToFixedBE _ _ (by rw [pow256_8]; exact w16)
  have l16 : (natToBEBytes h.base_fee).length ≤ 32 :=
    length_natToBEBytes_le _ _ (by rw [pow256_32]; exact w17)
  have s1 := rlpStr_length_le _ g1
  have s2 := rlpStr_length_le _ g2
  have s3 := rlpStr_length_le _ g3
  have s4 := rlpStr_length_le _ g4
  have s5 := rlpStr_length_le _ g5
  have s6 := rlpStr_length_le _ g6
  have s7 := rlpStr_length_le _ g7
  have s8 := rlpStr_length_le _ g8
  have s9 := rlpStr_length_le _ g9
  have s10 := rlpStr_length_le _ g10
  have s11 := rlpStr_length_le _ g11
  have s12 := rlpStr_length_le _ g12
  have s13 := rlpStr_length_le _ g13
  have s14 := rlpStr_length_le _ g14
  have s15 := rlpStr_length_le _ g15
  have s16 := rlpStr_length_le _ g16
  simp only [rlpHeaderPayload, headerFields, List.map_cons, List.map_nil,
    List.flatten_cons, List.flatten_nil, List.length_append, List.length_nil]
  omega

theorem decodeHeader_rlpEncodeHeader (h : Header) (hw : h.wf) :
    decodeHeader (rlpEncodeHeader h) = some h := by
  have hp : (rlpHeaderPayload h).length < 2 ^ 64 := rlpHeaderPayload_length_lt h hw
  have h1 : parseList (rlpEncodeHeader h) = some (rlpHeaderPayload h, []) := by
    have := parseList_rlpList (rlpHeaderPayload h) [] hp
    rwa [List.append_nil] at this
  have h2 : parseItems 16 (rlpHeaderPayload h) = some (headerFields h, []) := by
    have := parseItems_flatten (headerFields h) [] (headerFields_length_lt h hw)
    rw [List.append_nil] at this
    simpa [rlpHeaderPayload] using this
  rw [decodeHeader.eq_def]
  simp only [headerFields] at h2
  simp only [h1, h2, beBytesToNat_natToFixedBE, beBytesToNat_natToBEBytes]

theorem rlpEncodeHeader_inj (h1 h2 : Header) (hw1 : h1.wf) (hw2 : h2.wf)
    (he : rlpEncodeHeader h1 = rlpEncodeHeader h2) : h1 = h2 := by
  have d1 := decodeHeader_rlpEncodeHeader h1 hw1
  have d2 := decodeHeader_rlpEncodeHeader h2 hw2
  rw [he, d2] at d1
  exact (Option.some.inj d1).symm

/-! ### LRU cache invariants -/

theorem find?_key_eq {c : LruCache} {k : Bytes} {ent : Bytes × Nat}
    (hf : c.entries.find? (fun e => e.1 == k) = some ent) : ent.1 = k := by
  have := List.find?_some hf
  simpa using this

theorem LruCache.getOrInsert_fst_of_consistent (keccak : Bytes → Byte32) (c : LruCache)
    (k : Bytes) (hc : c.Consistent keccak) :
    (c.getOrInsert k (keccakDigest keccak k)).1 = keccakDigest keccak k := by
  unfold LruCache.getOrInsert
  cases hf : c.entries.find? (fun e => e.1 == k) with
  | none => rfl
  | some ent =>
    have hmem := List.mem_of_find?_eq_some hf
    have hk : ent.1 = k := find?_key_eq hf
    simp [hc ent hmem, hk]

theorem LruCache.getOrInsert_consistent (keccak : Bytes → Byte32) (c : LruCache)
    (k : Bytes) (hc : c.Consistent keccak) :
    ((c.getOrInsert k (keccakDigest keccak k)).2).Consistent keccak := by
  unfold LruCache.getOrInsert
  cases hf : c.entries.find? (fun e => e.1 == k) with
  | some ent =>
    intro e he
    simp only at he
    rcases List.mem_cons.mp he with rfl | he'
    · exact hc e (List.mem_of_find?_eq_some hf)
    · exact hc e (List.mem_of_mem_eraseP he')
  | none =>
    intro e he
    simp only at he
    have he2 : e ∈ (k, keccakDigest keccak k) :: c.entries := List.take_subset _ _ he
    rcases List.mem_cons.mp he2 with rfl | he'
    · rfl
    · exact hc e he'

theorem LruCache.new_consistent (keccak : Bytes → Byte32) (n : Nat) :
    (LruCache.new n).Consistent keccak := by
  intro e he
  simp [LruCache.new] at he

theorem hash_fst_of_consistent (keccak : Bytes → Byte32) (c : LruCache) (h : Header)
    (hc : c.Consistent keccak) :
    (Header.hash keccak h c).1 = keccakDigest keccak (rlpEncodeHeader h) :=
  LruCache.getOrInsert_fst_of_consistent keccak c (rlpEncodeHeader h) hc

theorem hash_snd_consistent (keccak : Bytes → Byte32) (c : LruCache) (h : Header)
    (hc : c.Consistent keccak) :
    (Header.hash keccak h c).2.Consistent keccak :=
  LruCache.getOrInsert_consistent keccak c (rlpEncodeHeader h) hc

theorem runHashes_consistent (keccak : Bytes → Byte32) (hs : List Header) (c : LruCache)
    (hc : c.Consistent keccak) : (runHashes keccak hs c).Consistent keccak := by
  induction hs generalizing c with
  | nil => simpa [runHashes] using hc
  | cons h hs ih =>
    simp only [runHashes, List.foldl_cons]
    exact ih _ (hash_snd_consistent keccak c h hc)

theorem LruCache.getOrInsert_cap (c : LruCache) (k : Bytes) (v : Nat) :
    (c.getOrInsert k v).2.cap = c.cap := by
  unfold LruCache.getOrInsert
  cases c.entries.find? (fun e => e.1 == k) <;> rfl

theorem LruCache.getOrInsert_length_le (c : LruCache) (k : Bytes) (v : Nat)
    (hlen : c.entries.length ≤ c.cap) :
    (c.getOrInsert k v).2.entries.length ≤ c.cap := by
  unfold LruCache.getOrInsert
  cases hf : c.entries.find? (fun e => e.1 == k) with
  | some ent =>
    have hmem := List.mem_of_find?_eq_some hf
    have hp := List.find?_some hf
    have herase := List.length_eraseP_of_mem (p := fun e => e.1 == k) hmem hp
    have hpos : 0 < c.entries.length := List.length_pos.mpr (List.ne_nil_of_mem hmem)
    simp only [List.length_cons]
    omega
  | none =>
    simp only [List.length_take]
    exact Nat.min_le_left _ _

theorem runHashes_length_le (keccak : Bytes → Byte32) (hs : List Header) (c : LruCache)
    (hlen : c.entries.length ≤ c.cap) :
    (runHashes keccak hs c).cap = c.cap ∧
      (runHashes keccak hs c).entries.length ≤ c.cap := by
  induction hs generalizing c with
  | nil => exact ⟨rfl, hlen⟩
  | cons h hs ih =>
    have hcap : (Header.hash keccak h c).2.cap = c.cap :=
      LruCache.getOrInsert_cap c (rlpEncodeHeader h)
        (keccakDigest keccak (rlpEncodeHeader h))
    have hle : (Header.hash keccak h c).2.entries.length ≤ c.cap :=
      LruCache.getOrInsert_length_le c (rlpEncodeHeader h)
        (keccakDigest keccak (rlpEncodeHeader h)) hlen
    have hstep : runHashes keccak (h :: hs) c
        = runHashes keccak hs (Header.hash keccak h c).2 := rfl
    have hrec := ih (Header.hash keccak h c).2 (by rw [hcap]; exact hle)
    rw [hstep]
    exact ⟨hrec.1.trans hcap, by rw [hcap] at hrec; exact hrec.2⟩

theorem take_at_cap {α : Type} (cap : Nat) (x : α) (l : List α) (hl : l.length = cap)
    (hcap : 0 < cap) : (x :: l).take cap = x :: l.dropLast := by
  obtain ⟨m, rfl⟩ : ∃ m, cap = m + 1 := ⟨cap - 1, by omega⟩
  rw [List.take_succ_cons]
  congr 1
  rw [List.dropLast_eq_take]
  congr 1
  omega

/-! ### Claims -/

/-- C1: for every header and every consistent cache state (fresh, pre-warmed
with this header's encoding, or holding other hashed entries — exactly the
states the program can produce), `Header::hash` returns exactly the
Keccak-256 digest of the header's canonical RLP encoding, and the result
agrees with the one a freshly created cache produces: caching never changes
the returned digest. -/
theorem hash_returns_digest_of_encoding (keccak : Bytes → Byte32) (c : LruCache)
    (h : Header) (hc : c.Consistent keccak) :
    (Header.hash keccak h c).1 = keccakDigest keccak (rlpEncodeHeader h) ∧
    (Header.hash keccak h c).1 = (Header.hash keccak h headerHashCacheInit).1 := by
  have h1 := hash_fst_of_consistent keccak c h hc
  have h2 := hash_fst_of_consistent keccak headerHashCacheInit h
    (LruCache.new_consistent keccak 100)
  exact ⟨h1, h1.trans h2.symm⟩

/-- Witness for C1: a concrete cache pre-warmed with the zero header's
encoding plus an unrelated entry. -/
theorem hash_returns_digest_of_encoding_witness :
    (LruCache.mk [(rlpEncodeHeader zeroHeader, 0), ([5], 0)] 100).Consistent zeroKeccak ∧
    ((Header.hash zeroKeccak zeroHeader
        (LruCache.mk [(rlpEncodeHeader zeroHeader, 0), ([5], 0)] 100)).1
       = keccakDigest zeroKeccak (rlpEncodeHeader zeroHeader) ∧
     (Header.hash zeroKeccak zeroHeader
        (LruCache.mk [(rlpEncodeHeader zeroHeader, 0), ([5], 0)] 100)).1
       = (Header.hash zeroKeccak zeroHeader headerHashCacheInit).1) :=
  ⟨by decide, hash_returns_digest_of_encoding zeroKeccak _ zeroHeader (by decide)⟩

/-- C2: combining a header's lossy projection with its own two discarded
fields reproduces the header exactly. -/
theorem new_ofHeader_roundtrip (h : Header) :
    Header.new (PartialHeader.ofHeader h) h.ommers_hash h.transactions_root = h := rfl

/-- C3: the canonical RLP encoding is injective on well-typed header
values — two headers differing in at least one field have different
encodings. -/
theorem rlpEncodeHeader_injective (h1 h2 : Header) (hw1 : h1.wf) (hw2 : h2.wf)
    (hne : h1 ≠ h2) : rlpEncodeHeader h1 ≠ rlpEncodeHeader h2 :=
  fun he => hne (rlpEncodeHeader_inj h1 h2 hw1 hw2 he)

theorem pos_pow_two (n : Nat) : 0 < 2 ^ n := pow_pos (by norm_num) n

theorem zeroHeader_wf : zeroHeader.wf :=
  ⟨pos_pow_two 256, pos_pow_two 256, pos_pow_two 160, pos_pow_two 256, pos_pow_two 256,
   pos_pow_two 256, pos_pow_two 2048, pos_pow_two 256, pos_pow_two 256, pos_pow_two 256,
   pos_pow_two 256, pos_pow_two 64, by simp [zeroHeader], pos_pow_two 63, pos_pow_two 256,
   pos_pow_two 64, pos_pow_two 256⟩

theorem zeroHeaderTs1_wf : ({ zeroHeader with timestamp := 1 } : Header).wf :=
  ⟨pos_pow_two 256, pos_pow_two 256, pos_pow_two 160, pos_pow_two 256, pos_pow_two 256,
   pos_pow_two 256, pos_pow_two 2048, pos_pow_two 256, pos_pow_two 256, pos_pow_two 256,
   pos_pow_two 256, by norm_num, by simp [zeroHeader], pos_pow_two 63, pos_pow_two 256,
   pos_pow_two 64, pos_pow_two 256⟩

/-- Witness for C3: the zero header versus the same header with
timestamp 1. -/
theorem rlpEncodeHeader_injective_witness :
    zeroHeader.wf ∧ ({ zeroHeader with timestamp := 1 } : Header).wf ∧
    zeroHeader ≠ { zeroHeader with timestamp := 1 } ∧
    rlpEncodeHeader zeroHeader ≠ rlpEncodeHeader { zeroHeader with timestamp := 1 } :=
  ⟨zeroHeader_wf, zeroHeaderTs1_wf, by decide,
    rlpEncodeHeader_injective zeroHeader _ zeroHeader_wf zeroHeaderTs1_wf (by decide)⟩

/-- C4: the identity cache holds no entries at creation, and after any
sequence of `Header::hash` calls the number of retained entries never
exceeds the fixed capacity 100. -/
theorem cache_bounded (keccak : Bytes → Byte32) (hs : List Header) :
    headerHashCacheInit.entries = [] ∧
    (runHashes keccak hs headerHashCacheInit).entries.length ≤ 100 := by
  refine ⟨rfl, ?_⟩
  exact (runHashes_length_le keccak hs headerHashCacheInit (by simp [headerHashCacheInit, LruCache.new])).2

/-- C5: the eviction order is least-recently-used. A `Header::hash` call
that hits an existing key moves that entry to the most-recent position
(refreshing its recency); a call that inserts a new key while the cache is
full keeps every entry except the least-recently-used one (the back of the
recency order), which is evicted. -/
theorem lru_eviction_order (keccak : Bytes → Byte32) (h : Header) (c : LruCache) :
    (∀ ent, c.entries.find? (fun e => e.1 == rlpEncodeHeader h) = some ent →
      (Header.hash keccak h c).2.entries
        = ent :: c.entries.eraseP (fun e => e.1 == rlpEncodeHeader h)) ∧
    (c.entries.find? (fun e => e.1 == rlpEncodeHeader h) = none →
      c.entries.length = c.cap → 0 < c.cap →
      (Header.hash keccak h c).2.entries
        = (rlpEncodeHeader h, keccakDigest keccak (rlpEncodeHeader h))
            :: c.entries.dropLast) := by
  constructor
  · intro ent hf
    unfold Header.hash LruCache.getOrInsert
    rw [hf]
  · intro hf hlen hcap
    unfold Header.hash LruCache.getOrInsert
    rw [hf]
    exact take_at_cap c.cap _ c.entries hlen hcap

set_option maxRecDepth 40000 in
/-- Witness for C5: hashing the zero header against a full two-entry cache
that does not contain its encoding evicts exactly the least-recent entry. -/
theorem lru_eviction_order_witness :
    ((LruCache.mk [([0], 0), ([1], 1)] 2).entries.find?
        (fun e => e.1 == rlpEncodeHeader zeroHeader) = none) ∧
    (LruCache.mk [([0], 0), ([1], 1)] 2).entries.length
      = (LruCache.mk [([0], 0), ([1], 1)] 2).cap ∧
    0 < (LruCache.mk [([0], 0), ([1], 1)] 2).cap ∧
    (Header.hash zeroKeccak zeroHeader (LruCache.mk [([0], 0), ([1], 1)] 2)).2.entries
      = (rlpEncodeHeader zeroHeader, keccakDigest zeroKeccak (rlpEncodeHeader zeroHeader))
          :: [([0], 0)] := by
  refine ⟨by decide, by decide, by decide, ?_⟩
  have := (lru_eviction_order zeroKeccak zeroHeader
    (LruCache.mk [([0], 0), ([1], 1)] 2)).2 (by decide) (by decide) (by decide)
  simpa using this

/-- C6: `Header::hash` is deterministic within a process run — hashing the
same header at any two reachable cache states (after any two histories of
prior hash calls from the initial empty cache) returns the same digest. -/
theorem hash_deterministic (keccak : Bytes → Byte32) (h : Header)
    (hs1 hs2 : List Header) :
    (Header.hash keccak h (runHashes keccak hs1 headerHashCacheInit)).1
      = (Header.hash keccak h (runHashes keccak hs2 headerHashCacheInit)).1 := by
  have c1 : (runHashes keccak hs1 headerHashCacheInit).Consistent keccak :=
    runHashes_consistent keccak hs1 headerHashCacheInit (LruCache.new_consistent keccak 100)
  have c2 : (runHashes keccak hs2 headerHashCacheInit).Consistent keccak :=
    runHashes_consistent keccak hs2 headerHashCacheInit (LruCache.new_consistent keccak 100)
  rw [hash_fst_of_consistent keccak _ h c1, hash_fst_of_consistent keccak _ h c2]

/-- C7: `Header::new` copies every field of the partial header unchanged,
sets `ommers_hash` and `transactions_root` to the supplied values, and (being
a total function) performs no validation. -/
theorem header_new_fields (p : PartialHeader) (m t : Nat) :
    (Header.new p m t).parent_hash = p.parent_hash ∧
    (Header.new p m t).ommers_hash = m ∧
    (Header.new p m t).beneficiary = p.beneficiary ∧
    (Header.new p m t).state_root = p.state_root ∧
    (Header.new p m t).transactions_root = t ∧
    (Header.new p m t).receipts_root = p.receipts_root ∧
    (Header.new p m t).logs_bloom = p.logs_bloom ∧
    (Header.new p m t).difficulty = p.difficulty ∧
    (Header.new p m t).number = p.number ∧
    (Header.new p m t).gas_limit = p.gas_limit ∧
    (Header.new p m t).gas_used = p.gas_used ∧
    (Header.new p m t).timestamp = p.timestamp ∧
    (Header.new p m t).extra_data = p.extra_data ∧
    (Header.new p m t).mix_hash = p.mix_hash ∧
    (Header.new p m t).nonce = p.nonce ∧
    (Header.new p m t).base_fee = p.base_fee :=
  ⟨rfl, rfl, rfl, rfl, rfl, rfl, rfl, rfl, rfl, rfl, rfl, rfl, rfl, rfl, rfl, rfl⟩

/-- C8: `PartialHeader::from` discards exactly `ommers_hash` and
`transactions_root`: each of the other fourteen fields of the result equals
the correspondingly named field of the input header. -/
theorem ofHeader_fields (h : Header) :
    (PartialHeader.ofHeader h).parent_hash = h.parent_hash ∧
    (PartialHeader.ofHeader h).beneficiary = h.beneficiary ∧
    (PartialHeader.ofHeader h).state_root = h.state_root ∧
    (PartialHeader.ofHeader h).receipts_root = h.receipts_root ∧
    (PartialHeader.ofHeader h).logs_bloom = h.logs_bloom ∧
    (PartialHeader.ofHeader h).difficulty = h.difficulty ∧
    (PartialHeader.ofHeader h).number = h.number ∧
    (PartialHeader.ofHeader h).gas_limit = h.gas_limit ∧
    (PartialHeader.ofHeader h).gas_used = h.gas_used ∧
    (PartialHeader.ofHeader h).timestamp = h.timestamp ∧
    (PartialHeader.ofHeader h).extra_data = h.extra_data ∧
    (PartialHeader.ofHeader h).mix_hash = h.mix_hash ∧
    (PartialHeader.ofHeader h).nonce = h.nonce ∧
    (PartialHeader.ofHeader h).base_fee = h.base_fee :=
  ⟨rfl, rfl, rfl, rfl, rfl, rfl, rfl, rfl, rfl, rfl, rfl, rfl, rfl, rfl⟩

/-- C9: the operations are total. In particular the only latent failure
branch — `H256::from_slice` on the Keccak output inside `Header::hash` — is
unreachable, because the digest is always exactly 32 bytes: the checked
version of `hash` always succeeds and agrees with the total one. -/
theorem hash_total_no_failure (keccak : Bytes → Byte32) (h : Header) (c : LruCache) :
    Header.hashChecked keccak h c = some (Header.hash keccak h c) := by
  unfold Header.hashChecked Header.hash LruCache.getOrInsert H256.from_slice keccakDigest
  cases hf : c.entries.find? (fun e => e.1 == rlpEncodeHeader h) with
  | some ent => simp [hf]
  | none => simp [hf, (keccak (rlpEncodeHeader h)).2]

/-- C10: the reverse round trip — projecting a header built from a partial
header and two supplied roots recovers the partial header exactly. -/
theorem ofHeader_new_roundtrip (p : PartialHeader) (m t : Nat) :
    PartialHeader.ofHeader (Header.new p m t) = p := rfl
